import Mathlib

/-!
# Verification of the distractor-generation engine of `practice_drink`

The engine under verification is `generate_attribute_options` in `src/app.py`
(generation 2 of the heuristic).  Python floats are modelled as exact rationals
(`ℚ`): every value manipulated by the engine is a finite decimal, for which the
idealisation agrees with the source's arithmetic.  Python's `str`/`float` on
plain decimal literals are modelled by `pyFmt`/`pyFloat` below.
-/

namespace PracticeDrink

/-- The character for one decimal digit, `'0'`..`'9'`. -/
def digitChar : ℕ → Char
  | 0 => '0'
  | 1 => '1'
  | 2 => '2'
  | 3 => '3'
  | 4 => '4'
  | 5 => '5'
  | 6 => '6'
  | 7 => '7'
  | 8 => '8'
  | _ => '9'

/-- Numeric value of a digit character. -/
def digitVal (c : Char) : ℕ := c.toNat - 48

/-- Whether a character is one of `'0'`..`'9'`. -/
def isDigitChar (c : Char) : Bool := 48 ≤ c.toNat && c.toNat ≤ 57

/-- Decimal digits of `n`, least significant first (empty for `0`). -/
def natDigitsRev (n : ℕ) : List ℕ :=
  if h : n = 0 then [] else n % 10 :: natDigitsRev (n / 10)
termination_by n
decreasing_by exact Nat.div_lt_self (Nat.pos_of_ne_zero h) (by norm_num)

/-- Decimal rendering of a natural number, most significant digit first. -/
def natToChars (n : ℕ) : List Char :=
  if n = 0 then ['0'] else ((natDigitsRev n).map digitChar).reverse

/-- Value of a most-significant-first list of digit characters. -/
def digitsVal (cs : List Char) : ℕ := cs.foldl (fun a c => 10 * a + digitVal c) 0

/-- Parse an unsigned decimal literal (digits, optionally one `'.'`):
the body of Python's `float` on the literals the engine deals with. -/
def parseUnsigned (cs : List Char) : Option ℚ :=
  match cs.dropWhile (fun c => c ≠ '.') with
  | [] =>
    if cs.takeWhile (fun c => c ≠ '.') ≠ [] ∧ (cs.takeWhile (fun c => c ≠ '.')).all isDigitChar then
      some ((digitsVal (cs.takeWhile (fun c => c ≠ '.')) : ℕ) : ℚ)
    else none
  | _ :: fp =>
    if (cs.takeWhile (fun c => c ≠ '.') ≠ [] ∨ fp ≠ []) ∧
        (cs.takeWhile (fun c => c ≠ '.')).all isDigitChar ∧ fp.all isDigitChar then
      some (((digitsVal (cs.takeWhile (fun c => c ≠ '.')) * 10 ^ fp.length + digitsVal fp : ℕ) : ℚ) /
        (10 : ℚ) ^ fp.length)
    else none

/-- Python `float(s)` on plain decimal literals (optional sign, digits,
optional fractional part); exotic forms (exponents, `inf`, …) are out of
scope of the engine. `none` models the `ValueError` branch. -/
def pyFloat (s : String) : Option ℚ :=
  match s.data with
  | [] => none
  | c :: cs =>
    if c = '-' then (parseUnsigned cs).map (fun q => -q)
    else if c = '+' then parseUnsigned cs
    else parseUnsigned (c :: cs)

/-- Exponent of the prime `p` in `n` (`0` when `p ≤ 1` or `n = 0`). -/
def maxPow (p n : ℕ) : ℕ :=
  if h : 1 < p ∧ 0 < n ∧ p ∣ n then maxPow p (n / p) + 1 else 0
termination_by n
decreasing_by exact Nat.div_lt_self h.2.1 h.1

/-- Left-pad a digit string with `'0'` up to length `k`. -/
def padZeros (k : ℕ) (cs : List Char) : List Char :=
  List.replicate (k - cs.length) '0' ++ cs

/-- Number of decimal digits after the point needed to write `q` exactly
(correct whenever `q.den` only has the prime factors 2 and 5). -/
def decExp (q : ℚ) : ℕ := max (maxPow 2 q.den) (maxPow 5 q.den)

/-- Python `str` on the engine's numeric values: integers are written without
a decimal point (the source's `str(int(current))` branch), other finite
decimals with their exact decimal expansion.  The final `toString` fallback is
unreachable for finite decimals. -/
def pyFmt (q : ℚ) : String :=
  if q.den = 1 then
    String.mk ((if q.num < 0 then ['-'] else []) ++ natToChars q.num.natAbs)
  else if (q * 10 ^ decExp q).den = 1 then
    String.mk ((if q.num < 0 then ['-'] else []) ++
      natToChars ((q * 10 ^ decExp q).num.natAbs / 10 ^ decExp q) ++
      '.' :: padZeros (decExp q) (natToChars ((q * 10 ^ decExp q).num.natAbs % 10 ^ decExp q)))
  else toString q

/-- A rational that has a finite decimal expansion; every value handled by the
engine is of this form. -/
def IsFiniteDecimal (q : ℚ) : Prop := ∃ k : ℕ, q.den ∣ 10 ^ k

/-- Step-size rule of `generate_attribute_options` (src/app.py lines 154-165):
`c % 10 == 0` on floats holds exactly when `c / 10` is an integer, i.e. when
`(c / 10).den = 1` in the rational model. -/
def stepOf (c : ℚ) : ℚ :=
  if 10 ≤ c ∧ (c / 10).den = 1 then 10
  else if 5 ≤ c ∧ (c / 5).den = 1 then 5
  else if c < 5 then 1 / 2
  else if 10 ≤ c then 10 else 5

/-- The enumeration `while current <= max_value` loop (src/app.py lines
176-183), collecting the successive values of `current`.  The `0 < step`
conjunct is the termination condition; the engine only ever calls this with
`step ∈ {10, 5, 1/2}`. -/
def loopVals (current maxV step : ℚ) : List ℚ :=
  if h : current ≤ maxV ∧ 0 < step then current :: loopVals (current + step) maxV step
  else []
termination_by (⌊(maxV - current) / step⌋ + 1).toNat
decreasing_by
  have hs : step ≠ 0 := ne_of_gt h.2
  have h1 : (0 : ℚ) ≤ (maxV - current) / step :=
    div_nonneg (by linarith [h.1]) (le_of_lt h.2)
  have h2 : (maxV - (current + step)) / step = (maxV - current) / step - 1 := by
    field_simp
    ring
  have h3 : (0 : ℤ) ≤ ⌊(maxV - current) / step⌋ := Int.floor_nonneg.mpr h1
  rw [h2, Int.floor_sub_one]
  omega

/-- Numeric sort key used on line 191 (`key=lambda x: float(x)`); every string
the engine sorts does parse, so the default `0` is never used. -/
def valD (s : String) : ℚ := (pyFloat s).getD 0

/-- `generate_attribute_options` (src/app.py lines 125-193).  The predefined
options delivered by the database query are passed in as `predefined`; the two
`random.randint` draws (line 169-170) as `b` (below, 2..4) and `a` (above,
3..5).  `list(set(..))` followed by a sort on the numeric value is modelled by
`dedup` followed by `mergeSort` on the parsed value. -/
def generate_attribute_options (predefined : List String) (correct_value : String)
    (b a : ℕ) : List String :=
  if predefined ≠ [] then predefined
  else
    match pyFloat correct_value with
    | none => [correct_value]
    | some c =>
      let step := stepOf c
      let minV : ℚ := max 0 (c - step * b)
      let maxV : ℚ := c + step * a
      let opts0 := (loopVals minV maxV step).map pyFmt
      let correct_str := pyFmt c
      let opts1 := if correct_str ∈ opts0 then opts0 else opts0 ++ [correct_str]
      opts1.dedup.mergeSort (fun s t => decide (valD s ≤ valD t))

/-- The enumerated option strings of the numeric branch (src/app.py lines
176-183), before the correct answer is re-inserted. -/
def enumStrs (c : ℚ) (b a : ℕ) : List String :=
  (loopVals (max 0 (c - stepOf c * b)) (c + stepOf c * a) (stepOf c)).map pyFmt

/-- `options_list` after the correct-answer insertion of src/app.py lines
186-188. -/
def optsWithCorrect (c : ℚ) (b a : ℕ) : List String :=
  if pyFmt c ∈ enumStrs c b a then enumStrs c b a else enumStrs c b a ++ [pyFmt c]

/-- Modelled from the spec: generation 1 of the engine (spec sections 4.1,
4.2, 4.4) is not present under `src/` (only generation 2 is), so it is
modelled here from the spec's words.  `roundTen` is the "nearest multiple of
ten" of a value. -/
def roundTen (q : ℚ) : ℚ := 10 * ((round (q / 10) : ℤ) : ℚ)

/-- Modelled from the spec: the Nearest-Neighbor Distractor Selector
(spec 4.1): parse every pool entry, skipping unparsable ones, stable-sort by
absolute distance to the correct value, take the first 4. -/
def select_nearest (c : ℚ) (pool : List String) : List (String × ℚ) :=
  ((pool.filterMap (fun s => (pyFloat s).map (fun v => (s, v)))).mergeSort
    (fun p q => decide (|p.2 - c| ≤ |q.2 - c|))).take 4

/-- Modelled from the spec: the selected neighbors' strings plus the derived
nearest-multiple-of-ten distractors that differ from the correct value by
more than 0.1 (spec 4.1, side effect). -/
def neighborStrings (c : ℚ) (pool : List String) : List String :=
  (select_nearest c pool).map Prod.fst ++
    (select_nearest c pool).filterMap (fun p =>
      if 1 / 10 < |roundTen p.2 - c| then some (pyFmt (roundTen p.2)) else none)

/-- Modelled from the spec: the catalog of multiple-of-ten offsets of the
Rounded-Offset Synthesizer (spec 4.2). -/
def offsetCatalog : List ℚ := [-20, -10, 10, 20, 30]

/-- Modelled from the spec: the fallback catalog of large round numbers that
guarantees forward progress (spec 4.2). -/
def fallbackCatalog : List ℚ := [50, 100, 150, 200]

/-- Modelled from the spec: the catalog of generic quantity labels used for
non-numeric correct answers (spec 4.2). -/
def labelCatalog : List String := ["10", "20", "30", "trace amount", "small amount"]

/-- Modelled from the spec: validity of a synthesized numeric distractor
(spec 4.2): it differs from the correct value by more than 0.1 and is not
already present. -/
def validFiller (c : ℚ) (existing : List String) (v : ℚ) : Bool :=
  decide (1 / 10 < |v - c|) && decide (pyFmt v ∉ existing)

/-- Modelled from the spec: the Rounded-Offset Distractor Synthesizer
(spec 4.2).  `draws` is the bounded sequence of random offset draws attempted
before the deterministic fallback catalog; offsets are applied to the nearest
multiple of ten and clamped at 0. -/
def synthesize_filler (c? : Option ℚ) (existing : List String) (draws : List ℕ) :
    Option String :=
  match c? with
  | some c =>
    (((draws.map (fun k => max 0 (roundTen c + offsetCatalog.getD (k % 5) 0)) ++
        fallbackCatalog).filter (validFiller c existing)).head?).map pyFmt
  | none => (labelCatalog.filter (fun s => decide (s ∉ existing))).head?

/-- Modelled from the spec: the finalizer's fill loop (spec 4.4): while the
option set has fewer than 4 members, invoke the synthesizer and add the fresh
result; a stale or missing result stops the loop (the success lemmas show
this never happens). -/
def fillLoop (filler : List String → Option String) (S : List String) : List String :=
  if h : S.length < 4 then
    match filler S with
    | some s => if hs : s ∈ S then S else fillLoop filler (S ++ [s])
    | none => S
  else S
termination_by 4 - S.length
decreasing_by
  simp only [List.length_append, List.length_singleton]
  omega

/-- Modelled from the spec: the Option Set Finalizer before shuffling
(spec 4.4): start with the correct answer's string, union in the neighbor
candidates and derived distractors, then fill up to 4 members. -/
def finalize (correct : String) (pool : List String) (draws : List ℕ) : List String :=
  (fillLoop (fun S => synthesize_filler (pyFloat correct) S draws)
    ((match pyFloat correct with
      | some c => neighborStrings c pool
      | none => ([] : List String)).foldl
        (fun S s => if s ∈ S then S else S ++ [s]) [correct]))

/-- Modelled from the spec: shuffle-then-truncate step of the finalizer
(spec 4.4): the shuffled order is an arbitrary permutation (quantified at the
theorem level); truncate to 4 entries and re-insert the correct answer if the
truncation dropped it. -/
def truncate4 (correct : String) (l : List String) : List String :=
  if correct ∈ l.take 4 then l.take 4 else l.take 3 ++ [correct]

/-- Value of a least-significant-first digit list. -/
def ofDigitsRev : List ℕ → ℕ
  | [] => 0
  | d :: ds => d + 10 * ofDigitsRev ds

theorem digitVal_digitChar {d : ℕ} (h : d < 10) : digitVal (digitChar d) = d := by
  interval_cases d <;> rfl

theorem isDigitChar_digitChar {d : ℕ} (h : d < 10) : isDigitChar (digitChar d) = true := by
  interval_cases d <;> rfl

theorem ne_dot_of_isDigitChar {c : Char} (h : isDigitChar c = true) : c ≠ '.' := by
  rintro rfl
  exact absurd h (by decide)

theorem ne_dash_of_isDigitChar {c : Char} (h : isDigitChar c = true) : c ≠ '-' := by
  rintro rfl
  exact absurd h (by decide)

theorem ne_plus_of_isDigitChar {c : Char} (h : isDigitChar c = true) : c ≠ '+' := by
  rintro rfl
  exact absurd h (by decide)

theorem foldl_digits_shift (cs : List Char) (acc : ℕ) :
    cs.foldl (fun a c => 10 * a + digitVal c) acc = acc * 10 ^ cs.length + digitsVal cs := by
  induction cs generalizing acc with
  | nil => simp [digitsVal]
  | cons c cs ih =>
    simp only [List.foldl_cons, digitsVal, List.length_cons]
    rw [ih (10 * acc + digitVal c), ih (10 * 0 + digitVal c)]
    ring

theorem digitsVal_append (xs ys : List Char) :
    digitsVal (xs ++ ys) = digitsVal xs * 10 ^ ys.length + digitsVal ys := by
  simp only [digitsVal, List.foldl_append]
  exact foldl_digits_shift ys _

theorem ofDigitsRev_natDigitsRev (n : ℕ) : ofDigitsRev (natDigitsRev n) = n := by
  induction n using Nat.strong_induction_on with
  | _ n ih =>
    rw [natDigitsRev]
    by_cases h : n = 0
    · simp [h, ofDigitsRev]
    · rw [dif_neg h]
      have h2 := ih (n / 10) (Nat.div_lt_self (Nat.pos_of_ne_zero h) (by norm_num))
      simp only [ofDigitsRev, h2]
      omega

theorem natDigitsRev_lt (n : ℕ) : ∀ d ∈ natDigitsRev n, d < 10 := by
  induction n using Nat.strong_induction_on with
  | _ n ih =>
    rw [natDigitsRev]
    by_cases h : n = 0
    · simp [h]
    · rw [dif_neg h]
      intro d hd
      rcases List.mem_cons.mp hd with h1 | h1
      · subst h1
        exact Nat.mod_lt _ (by norm_num)
      · exact ih (n / 10) (Nat.div_lt_self (Nat.pos_of_ne_zero h) (by norm_num)) d h1

theorem natDigitsRev_length_le {n k : ℕ} (h : n < 10 ^ k) : (natDigitsRev n).length ≤ k := by
  induction n using Nat.strong_induction_on generalizing k with
  | _ n ih =>
    rw [natDigitsRev]
    by_cases h0 : n = 0
    · simp [h0]
    · rw [dif_neg h0]
      simp only [List.length_cons]
      have hk : k ≠ 0 := by
        rintro rfl
        simp only [pow_zero] at h
        omega
      have hdiv : n / 10 < 10 ^ (k - 1) := by
        rw [Nat.div_lt_iff_lt_mul (by norm_num : (0:ℕ) < 10)]
        calc n < 10 ^ k := h
          _ = 10 ^ (k - 1) * 10 := by
              rw [← pow_succ]
              congr 1
              omega
      have := ih (n / 10) (Nat.div_lt_self (Nat.pos_of_ne_zero h0) (by norm_num)) hdiv
      omega

theorem natDigitsRev_ne_nil {n : ℕ} (h : n ≠ 0) : natDigitsRev n ≠ [] := by
  rw [natDigitsRev, dif_neg h]
  simp

theorem natToChars_ne_nil (n : ℕ) : natToChars n ≠ [] := by
  unfold natToChars
  split
  · simp
  · next h =>
    simp only [ne_eq, List.reverse_eq_nil_iff, List.map_eq_nil_iff]
    exact natDigitsRev_ne_nil h

theorem natToChars_all_digits (n : ℕ) : (natToChars n).all isDigitChar = true := by
  unfold natToChars
  split
  · decide
  · rw [List.all_eq_true]
    intro c hc
    rw [List.mem_reverse] at hc
    obtain ⟨d, hd, rfl⟩ := List.mem_map.mp hc
    exact isDigitChar_digitChar (natDigitsRev_lt n d hd)

theorem digitsVal_rev_map {ds : List ℕ} (h : ∀ d ∈ ds, d < 10) :
    digitsVal ((ds.map digitChar).reverse) = ofDigitsRev ds := by
  induction ds with
  | nil => rfl
  | cons d ds ih =>
    simp only [List.map_cons, List.reverse_cons]
    rw [digitsVal_append]
    have h1 : digitsVal [digitChar d] = d := by
      simp [digitsVal, digitVal_digitChar (h d (by simp))]
    rw [h1, ih (fun x hx => h x (by simp [hx]))]
    simp only [List.length_singleton, ofDigitsRev]
    ring

theorem digitsVal_natToChars (n : ℕ) : digitsVal (natToChars n) = n := by
  unfold natToChars
  split
  · next h => subst h; rfl
  · rw [digitsVal_rev_map (natDigitsRev_lt n), ofDigitsRev_natDigitsRev]

theorem natToChars_length_le {n k : ℕ} (hn : n < 10 ^ k) (hk : 0 < k) :
    (natToChars n).length ≤ k := by
  unfold natToChars
  split
  · simpa using hk
  · simpa using natDigitsRev_length_le hn

theorem digitsVal_replicate_zero (j : ℕ) : digitsVal (List.replicate j '0') = 0 := by
  induction j with
  | zero => rfl
  | succ j ih =>
    rw [List.replicate_succ]
    show (List.replicate j '0').foldl (fun a c => 10 * a + digitVal c) (10 * 0 + digitVal '0') = 0
    exact ih

theorem digitsVal_padZeros (k : ℕ) (cs : List Char) : digitsVal (padZeros k cs) = digitsVal cs := by
  unfold padZeros
  rw [digitsVal_append, digitsVal_replicate_zero]
  simp

theorem padZeros_length {k : ℕ} {cs : List Char} (h : cs.length ≤ k) :
    (padZeros k cs).length = k := by
  simp only [padZeros, List.length_append, List.length_replicate]
  omega

theorem padZeros_all_digits {k : ℕ} {cs : List Char} (h : cs.all isDigitChar = true) :
    (padZeros k cs).all isDigitChar = true := by
  simp only [padZeros, List.all_append, Bool.and_eq_true, h, and_true]
  rw [List.all_eq_true]
  intro c hc
  rw [List.eq_of_mem_replicate hc]
  decide

theorem takeWhile_all {p : Char → Bool} {A : List Char} (hA : ∀ a ∈ A, p a = true) :
    A.takeWhile p = A := by
  induction A with
  | nil => rfl
  | cons a A ih =>
    rw [List.takeWhile_cons, if_pos (hA a (by simp))]
    rw [ih (fun x hx => hA x (by simp [hx]))]

theorem dropWhile_all {p : Char → Bool} {A : List Char} (hA : ∀ a ∈ A, p a = true) :
    A.dropWhile p = [] := by
  induction A with
  | nil => rfl
  | cons a A ih =>
    rw [List.dropWhile_cons, if_pos (hA a (by simp))]
    exact ih (fun x hx => hA x (by simp [hx]))

theorem takeWhile_append_cons {p : Char → Bool} {A B : List Char} {c : Char}
    (hA : ∀ a ∈ A, p a = true) (hc : p c = false) :
    (A ++ c :: B).takeWhile p = A := by
  induction A with
  | nil => simp [List.takeWhile_cons, hc]
  | cons a A ih =>
    rw [List.cons_append, List.takeWhile_cons, if_pos (hA a (by simp))]
    rw [ih (fun x hx => hA x (by simp [hx]))]

theorem dropWhile_append_cons {p : Char → Bool} {A B : List Char} {c : Char}
    (hA : ∀ a ∈ A, p a = true) (hc : p c = false) :
    (A ++ c :: B).dropWhile p = c :: B := by
  induction A with
  | nil => simp [List.dropWhile_cons, hc]
  | cons a A ih =>
    rw [List.cons_append, List.dropWhile_cons, if_pos (hA a (by simp))]
    exact ih (fun x hx => hA x (by simp [hx]))

theorem all_digits_not_dot {A : List Char} (h : A.all isDigitChar = true) :
    ∀ a ∈ A, (decide (a ≠ '.')) = true := by
  intro a ha
  rw [decide_eq_true_eq]
  exact ne_dot_of_isDigitChar (List.all_eq_true.mp h a ha)

theorem parseUnsigned_digits {cs : List Char} (h : cs.all isDigitChar = true) (hne : cs ≠ []) :
    parseUnsigned cs = some ((digitsVal cs : ℕ) : ℚ) := by
  unfold parseUnsigned
  rw [takeWhile_all (all_digits_not_dot h), dropWhile_all (all_digits_not_dot h)]
  simp [hne, h]

theorem parseUnsigned_decimal {A B : List Char} (hA : A.all isDigitChar = true)
    (hB : B.all isDigitChar = true) (hne : A ≠ []) :
    parseUnsigned (A ++ '.' :: B) =
      some (((digitsVal A * 10 ^ B.length + digitsVal B : ℕ) : ℚ) / (10 : ℚ) ^ B.length) := by
  unfold parseUnsigned
  rw [takeWhile_append_cons (all_digits_not_dot hA) (by decide),
    dropWhile_append_cons (all_digits_not_dot hA) (by decide)]
  simp [hne, hA, hB]

theorem pyFloat_mk_digit_head {c : Char} {cs : List Char} (hc : isDigitChar c = true) :
    pyFloat (String.mk (c :: cs)) = parseUnsigned (c :: cs) := by
  show (if c = '-' then (parseUnsigned cs).map (fun q => -q)
    else if c = '+' then parseUnsigned cs else parseUnsigned (c :: cs)) = parseUnsigned (c :: cs)
  rw [if_neg (ne_dash_of_isDigitChar hc), if_neg (ne_plus_of_isDigitChar hc)]

theorem pyFloat_mk_dash {cs : List Char} :
    pyFloat (String.mk ('-' :: cs)) = (parseUnsigned cs).map (fun q => -q) := by
  rfl

theorem maxPow_dvd (p n : ℕ) : p ^ maxPow p n ∣ n := by
  induction n using Nat.strong_induction_on with
  | _ n ih =>
    rw [maxPow]
    by_cases h : 1 < p ∧ 0 < n ∧ p ∣ n
    · rw [dif_pos h, pow_succ]
      calc p ^ maxPow p (n / p) * p ∣ n / p * p :=
            mul_dvd_mul (ih (n / p) (Nat.div_lt_self h.2.1 h.1)) dvd_rfl
        _ = n := Nat.div_mul_cancel h.2.2
    · rw [dif_neg h]
      simp

theorem le_maxPow {p : ℕ} (hp : 1 < p) {a n : ℕ} (hn : 0 < n) (h : p ^ a ∣ n) :
    a ≤ maxPow p n := by
  induction a generalizing n with
  | zero => exact Nat.zero_le _
  | succ a ih =>
    have hpn : p ∣ n := dvd_trans (dvd_pow_self p (Nat.succ_ne_zero a)) h
    rw [maxPow, dif_pos ⟨hp, hn, hpn⟩]
    have h2 : p ^ a ∣ n / p := by
      obtain ⟨m, hm⟩ := h
      have : n / p = p ^ a * m := by
        rw [hm, pow_succ, mul_comm (p ^ a) p, mul_assoc]
        exact Nat.mul_div_cancel_left _ (by omega)
      exact this ▸ Dvd.intro m rfl
    have hn2 : 0 < n / p := Nat.div_pos (Nat.le_of_dvd hn hpn) (by omega)
    have := ih hn2 h2
    omega

theorem eq_two_five_pow {n f : ℕ} (hn : 0 < n) (h : n ∣ 10 ^ f) :
    n = 2 ^ maxPow 2 n * 5 ^ maxPow 5 n := by
  set a := maxPow 2 n with ha
  set b := maxPow 5 n with hb
  have h2 : 2 ^ a ∣ n := ha ▸ maxPow_dvd 2 n
  have h5 : 5 ^ b ∣ n := hb ▸ maxPow_dvd 5 n
  have hcop : Nat.Coprime (2 ^ a) (5 ^ b) := Nat.Coprime.pow _ _ (by decide)
  obtain ⟨m, hm⟩ := hcop.mul_dvd_of_dvd_of_dvd h2 h5
  suffices hm1 : m = 1 by rw [hm, hm1, mul_one]
  have hm2 : ¬ 2 ∣ m := by
    intro hd
    obtain ⟨t, ht⟩ := hd
    have hdd : 2 ^ (a + 1) ∣ n := ⟨5 ^ b * t, by rw [hm, ht, pow_succ]; ring⟩
    have := le_maxPow (by norm_num) hn hdd
    omega
  have hm5 : ¬ 5 ∣ m := by
    intro hd
    obtain ⟨t, ht⟩ := hd
    have hdd : 5 ^ (b + 1) ∣ n := ⟨2 ^ a * t, by rw [hm, ht, pow_succ]; ring⟩
    have := le_maxPow (by norm_num) hn hdd
    omega
  have hmdvd : m ∣ 10 ^ f := dvd_trans ⟨2 ^ a * 5 ^ b, by rw [hm]; ring⟩ h
  have hcop2 : Nat.Coprime m 2 :=
    ((Nat.Prime.coprime_iff_not_dvd Nat.prime_two).mpr hm2).symm
  have hcop5 : Nat.Coprime m 5 :=
    ((Nat.Prime.coprime_iff_not_dvd Nat.prime_five).mpr hm5).symm
  have hcop10 : Nat.Coprime m (10 ^ f) := by
    have h10 : (10 : ℕ) = 2 * 5 := rfl
    exact Nat.Coprime.pow_right f (h10 ▸ Nat.Coprime.mul_right hcop2 hcop5)
  exact hcop10.eq_one_of_dvd hmdvd

theorem den_dvd_pow_decExp {q : ℚ} (h : IsFiniteDecimal q) : q.den ∣ 10 ^ decExp q := by
  obtain ⟨f, hf⟩ := h
  calc q.den = 2 ^ maxPow 2 q.den * 5 ^ maxPow 5 q.den := eq_two_five_pow q.den_pos hf
    _ ∣ 2 ^ decExp q * 5 ^ decExp q :=
        mul_dvd_mul (pow_dvd_pow 2 (le_max_left _ _)) (pow_dvd_pow 5 (le_max_right _ _))
    _ = 10 ^ decExp q := by rw [← Nat.mul_pow]

theorem decExp_pos {q : ℚ} (h : IsFiniteDecimal q) (hden : q.den ≠ 1) : 0 < decExp q := by
  rcases Nat.eq_zero_or_pos (decExp q) with h0 | h0
  · exfalso
    obtain ⟨f, hf⟩ := h
    have heq := eq_two_five_pow q.den_pos hf
    have hab : maxPow 2 q.den = 0 ∧ maxPow 5 q.den = 0 := by
      unfold decExp at h0
      omega
    rw [hab.1, hab.2] at heq
    simp only [pow_zero, mul_one] at heq
    exact hden heq
  · exact h0

theorem mul_pow_den_eq_one {q : ℚ} {k : ℕ} (h : q.den ∣ 10 ^ k) : (q * 10 ^ k).den = 1 := by
  obtain ⟨m, hm⟩ := h
  have h10 : ((10 : ℚ)) ^ k = (q.den : ℚ) * (m : ℚ) := by
    have := congrArg (fun x : ℕ => (x : ℚ)) hm
    push_cast at this
    exact this
  have hden : (q.den : ℚ) ≠ 0 := by
    exact_mod_cast q.den_pos.ne'
  have hq : q * 10 ^ k = ((q.num * (m : ℤ) : ℤ) : ℚ) := by
    rw [h10]
    nth_rewrite 1 [← Rat.num_div_den q]
    push_cast
    field_simp
    ring
  rw [hq, Rat.den_intCast]

theorem den_natCast_div_pow (n f : ℕ) : (((n : ℚ)) / (10 : ℚ) ^ f).den ∣ 10 ^ f := by
  have heq : ((n : ℚ)) / (10 : ℚ) ^ f = Rat.divInt ((n : ℤ)) (((10 ^ f : ℕ) : ℤ)) := by
    rw [Rat.divInt_eq_div]
    push_cast
    ring
  have hdvd := Rat.den_dvd ((n : ℤ)) (((10 ^ f : ℕ) : ℤ))
  rw [← heq] at hdvd
  exact_mod_cast hdvd

theorem isFiniteDecimal_natCast (n : ℕ) : IsFiniteDecimal ((n : ℚ)) :=
  ⟨0, by rw [Rat.den_natCast]; exact one_dvd _⟩

theorem isFiniteDecimal_of_den_one {q : ℚ} (h : q.den = 1) : IsFiniteDecimal q :=
  ⟨0, by rw [h]; exact one_dvd _⟩

theorem IsFiniteDecimal.neg {q : ℚ} (h : IsFiniteDecimal q) : IsFiniteDecimal (-q) := by
  obtain ⟨k, hk⟩ := h
  exact ⟨k, by rwa [Rat.neg_den]⟩

theorem IsFiniteDecimal.add {q r : ℚ} (hq : IsFiniteDecimal q) (hr : IsFiniteDecimal r) :
    IsFiniteDecimal (q + r) := by
  obtain ⟨k, hk⟩ := hq
  obtain ⟨l, hl⟩ := hr
  refine ⟨k + l, dvd_trans (Rat.add_den_dvd q r) ?_⟩
  rw [pow_add]
  exact mul_dvd_mul hk hl

theorem IsFiniteDecimal.mul {q r : ℚ} (hq : IsFiniteDecimal q) (hr : IsFiniteDecimal r) :
    IsFiniteDecimal (q * r) := by
  obtain ⟨k, hk⟩ := hq
  obtain ⟨l, hl⟩ := hr
  refine ⟨k + l, dvd_trans (Rat.mul_den_dvd q r) ?_⟩
  rw [pow_add]
  exact mul_dvd_mul hk hl

theorem IsFiniteDecimal.sub {q r : ℚ} (hq : IsFiniteDecimal q) (hr : IsFiniteDecimal r) :
    IsFiniteDecimal (q - r) := by
  rw [sub_eq_add_neg]
  exact hq.add hr.neg

theorem IsFiniteDecimal.max {q r : ℚ} (hq : IsFiniteDecimal q) (hr : IsFiniteDecimal r) :
    IsFiniteDecimal (max q r) := by
  rcases max_choice q r with h | h <;> rw [h]
  · exact hq
  · exact hr

theorem parseUnsigned_isFiniteDecimal {cs : List Char} {q : ℚ}
    (h : parseUnsigned cs = some q) : IsFiniteDecimal q := by
  unfold parseUnsigned at h
  split at h
  · split at h
    · have hq := Option.some.inj h
      exact hq ▸ isFiniteDecimal_natCast _
    · exact absurd h (by simp)
  · split at h
    · have hq := Option.some.inj h
      refine hq ▸ ⟨_, den_natCast_div_pow _ _⟩
    · exact absurd h (by simp)

theorem pyFloat_isFiniteDecimal {s : String} {q : ℚ} (h : pyFloat s = some q) :
    IsFiniteDecimal q := by
  unfold pyFloat at h
  split at h
  · exact absurd h (by simp)
  · split at h
    · obtain ⟨r, hr, hq⟩ := Option.map_eq_some'.mp h
      exact hq ▸ (parseUnsigned_isFiniteDecimal hr).neg
    · split at h
      · exact parseUnsigned_isFiniteDecimal h
      · exact parseUnsigned_isFiniteDecimal h

theorem pyFloat_mk_all_digits {cs : List Char} (h : cs.all isDigitChar = true) (hne : cs ≠ []) :
    pyFloat (String.mk cs) = some ((digitsVal cs : ℕ) : ℚ) := by
  obtain ⟨c, cs', rfl⟩ := List.exists_cons_of_ne_nil hne
  rw [pyFloat_mk_digit_head (List.all_eq_true.mp h c (by simp)), parseUnsigned_digits h hne]

theorem pyFloat_mk_decimal {A B : List Char} (hA : A.all isDigitChar = true)
    (hB : B.all isDigitChar = true) (hne : A ≠ []) :
    pyFloat (String.mk (A ++ '.' :: B)) =
      some (((digitsVal A * 10 ^ B.length + digitsVal B : ℕ) : ℚ) / (10 : ℚ) ^ B.length) := by
  obtain ⟨c, A', rfl⟩ := List.exists_cons_of_ne_nil hne
  rw [List.cons_append, pyFloat_mk_digit_head (List.all_eq_true.mp hA c (by simp)),
    ← List.cons_append, parseUnsigned_decimal hA hB hne]

theorem pyFloat_pyFmt_of_den_one {q : ℚ} (h : q.den = 1) : pyFloat (pyFmt q) = some q := by
  have hq : ((q.num : ℤ) : ℚ) = q := (Rat.den_eq_one_iff q).mp h
  rw [pyFmt, if_pos h]
  rcases lt_or_ge q.num 0 with hneg | hpos
  · rw [if_pos hneg, List.singleton_append, pyFloat_mk_dash,
      parseUnsigned_digits (natToChars_all_digits _) (natToChars_ne_nil _),
      digitsVal_natToChars, Option.map_some']
    congr 1
    have habs : ((q.num.natAbs : ℕ) : ℚ) = |((q.num : ℤ) : ℚ)| := by
      rw [Int.cast_natAbs, Int.cast_abs]
    rw [habs, abs_of_neg (by exact_mod_cast hneg), hq, neg_neg]
  · rw [if_neg (not_lt.mpr hpos), List.nil_append,
      pyFloat_mk_all_digits (natToChars_all_digits _) (natToChars_ne_nil _),
      digitsVal_natToChars]
    congr 1
    have habs : ((q.num.natAbs : ℕ) : ℚ) = |((q.num : ℤ) : ℚ)| := by
      rw [Int.cast_natAbs, Int.cast_abs]
    rw [habs, abs_of_nonneg (by exact_mod_cast hpos), hq]

theorem pyFloat_pyFmt {q : ℚ} (h : IsFiniteDecimal q) : pyFloat (pyFmt q) = some q := by
  by_cases hden : q.den = 1
  · exact pyFloat_pyFmt_of_den_one hden
  · have hdvd : q.den ∣ 10 ^ decExp q := den_dvd_pow_decExp h
    have hint : (q * 10 ^ decExp q).den = 1 := mul_pow_den_eq_one hdvd
    have hkpos : 0 < decExp q := decExp_pos h hden
    have hm : (((q * 10 ^ decExp q).num : ℤ) : ℚ) = q * 10 ^ decExp q :=
      (Rat.den_eq_one_iff _).mp hint
    have hpow : (0 : ℚ) < 10 ^ decExp q := by positivity
    have hmod : (q * 10 ^ decExp q).num.natAbs % 10 ^ decExp q < 10 ^ decExp q :=
      Nat.mod_lt _ (Nat.pos_pow_of_pos _ (by norm_num))
    have hBlen : (padZeros (decExp q)
        (natToChars ((q * 10 ^ decExp q).num.natAbs % 10 ^ decExp q))).length = decExp q :=
      padZeros_length (natToChars_length_le hmod hkpos)
    have hBall : (padZeros (decExp q)
        (natToChars ((q * 10 ^ decExp q).num.natAbs % 10 ^ decExp q))).all isDigitChar = true :=
      padZeros_all_digits (natToChars_all_digits _)
    have hval : (digitsVal (natToChars ((q * 10 ^ decExp q).num.natAbs / 10 ^ decExp q)) *
          10 ^ decExp q +
        digitsVal (padZeros (decExp q)
          (natToChars ((q * 10 ^ decExp q).num.natAbs % 10 ^ decExp q))) : ℕ)
        = (q * 10 ^ decExp q).num.natAbs := by
      rw [digitsVal_natToChars, digitsVal_padZeros, digitsVal_natToChars, mul_comm]
      exact Nat.div_add_mod _ _
    have hcast : (((q * 10 ^ decExp q).num.natAbs : ℕ) : ℚ) = |q * 10 ^ decExp q| := by
      rw [Int.cast_natAbs, Int.cast_abs, hm]
    rw [pyFmt, if_neg hden, if_pos hint]
    rcases lt_or_ge q.num 0 with hneg | hpos
    · rw [if_pos hneg, List.singleton_append, List.cons_append, pyFloat_mk_dash,
        parseUnsigned_decimal (natToChars_all_digits _) hBall (natToChars_ne_nil _),
        Option.map_some']
      congr 1
      rw [hBlen, hval, hcast]
      have hqneg : q < 0 := Rat.num_neg.mp hneg
      have habs : |q * 10 ^ decExp q| = -(q * 10 ^ decExp q) :=
        abs_of_neg (mul_neg_of_neg_of_pos hqneg hpow)
      rw [habs]
      field_simp
    · rw [if_neg (not_lt.mpr hpos), List.nil_append,
        pyFloat_mk_decimal (natToChars_all_digits _) hBall (natToChars_ne_nil _)]
      congr 1
      rw [hBlen, hval, hcast]
      have hqpos : 0 ≤ q := Rat.num_nonneg.mp hpos
      have habs : |q * 10 ^ decExp q| = q * 10 ^ decExp q :=
        abs_of_nonneg (mul_nonneg hqpos hpow.le)
      rw [habs]
      field_simp

theorem loopVals_sound {cur maxV step : ℚ} :
    ∀ v ∈ loopVals cur maxV step, (∃ i : ℕ, v = cur + step * i) ∧ cur ≤ v ∧ v ≤ maxV := by
  induction cur, maxV, step using loopVals.induct with
  | case1 cur maxV step h ih =>
    intro v hv
    rw [loopVals, dif_pos h] at hv
    rcases List.mem_cons.mp hv with rfl | hv2
    · exact ⟨⟨0, by simp⟩, le_refl _, h.1⟩
    · obtain ⟨⟨i, hi⟩, hle, hmax⟩ := ih v hv2
      refine ⟨⟨i + 1, by rw [hi]; push_cast; ring⟩, ?_, hmax⟩
      have := h.2
      linarith
  | case2 cur maxV step h =>
    intro v hv
    rw [loopVals, dif_neg h] at hv
    exact absurd hv (List.not_mem_nil v)

theorem stepOf_cases (c : ℚ) : stepOf c = 10 ∨ stepOf c = 5 ∨ stepOf c = 1 / 2 := by
  unfold stepOf
  split
  · exact Or.inl rfl
  · split
    · exact Or.inr (Or.inl rfl)
    · split
      · exact Or.inr (Or.inr rfl)
      · split
        · exact Or.inl rfl
        · exact Or.inr (Or.inl rfl)

theorem stepOf_pos (c : ℚ) : 0 < stepOf c := by
  rcases stepOf_cases c with h | h | h <;> rw [h] <;> norm_num

theorem stepOf_half_le (c : ℚ) : 1 / 2 ≤ stepOf c := by
  rcases stepOf_cases c with h | h | h <;> rw [h] <;> norm_num

theorem isFiniteDecimal_zero : IsFiniteDecimal (0 : ℚ) :=
  isFiniteDecimal_of_den_one rfl

theorem stepOf_isFiniteDecimal (c : ℚ) : IsFiniteDecimal (stepOf c) := by
  rcases stepOf_cases c with h | h | h <;> rw [h]
  · exact isFiniteDecimal_of_den_one rfl
  · exact isFiniteDecimal_of_den_one rfl
  · exact ⟨1, by norm_num⟩

theorem minV_isFiniteDecimal {c : ℚ} (hc : IsFiniteDecimal c) (b : ℕ) :
    IsFiniteDecimal (max 0 (c - stepOf c * b)) :=
  IsFiniteDecimal.max isFiniteDecimal_zero
    (hc.sub ((stepOf_isFiniteDecimal c).mul (isFiniteDecimal_natCast b)))

theorem loopVal_isFiniteDecimal {c : ℚ} (hc : IsFiniteDecimal c) {b a : ℕ} {v : ℚ}
    (hv : v ∈ loopVals (max 0 (c - stepOf c * b)) (c + stepOf c * a) (stepOf c)) :
    IsFiniteDecimal v := by
  obtain ⟨⟨i, hi⟩, -, -⟩ := loopVals_sound v hv
  rw [hi]
  exact (minV_isFiniteDecimal hc b).add
    ((stepOf_isFiniteDecimal c).mul (isFiniteDecimal_natCast i))

theorem generate_numeric_eq {cv : String} {c : ℚ} (hc : pyFloat cv = some c) (b a : ℕ) :
    generate_attribute_options [] cv b a =
      (optsWithCorrect c b a).dedup.mergeSort (fun s t => decide (valD s ≤ valD t)) := by
  unfold generate_attribute_options
  rw [if_neg (by simp), hc]
  rfl

theorem generate_predefined {predefined : List String} (h : predefined ≠ []) (cv : String)
    (b a : ℕ) : generate_attribute_options predefined cv b a = predefined := by
  unfold generate_attribute_options
  rw [if_pos h]

theorem generate_non_numeric {cv : String} (hc : pyFloat cv = none) (b a : ℕ) :
    generate_attribute_options [] cv b a = [cv] := by
  unfold generate_attribute_options
  rw [if_neg (by simp), hc]

theorem correct_mem_generate {cv : String} {c : ℚ} (hc : pyFloat cv = some c) (b a : ℕ) :
    pyFmt c ∈ generate_attribute_options [] cv b a := by
  rw [generate_numeric_eq hc, List.mem_mergeSort, List.mem_dedup]
  unfold optsWithCorrect
  split
  · assumption
  · simp

theorem mem_generate_cases {cv : String} {c : ℚ} (hc : pyFloat cv = some c) {b a : ℕ}
    {s : String} (hs : s ∈ generate_attribute_options [] cv b a) :
    s = pyFmt c ∨
      ∃ v ∈ loopVals (max 0 (c - stepOf c * b)) (c + stepOf c * a) (stepOf c), s = pyFmt v := by
  rw [generate_numeric_eq hc, List.mem_mergeSort, List.mem_dedup] at hs
  unfold optsWithCorrect at hs
  have hcase : s ∈ enumStrs c b a ∨ s = pyFmt c := by
    split at hs
    · exact Or.inl hs
    · rcases List.mem_append.mp hs with h1 | h1
      · exact Or.inl h1
      · exact Or.inr (by simpa using h1)
  rcases hcase with h1 | h1
  · right
    obtain ⟨v, hv, hvs⟩ := List.mem_map.mp h1
    exact ⟨v, hv, hvs.symm⟩
  · exact Or.inl h1

theorem loopVals_complete {cur maxV step : ℚ} (hstep : 0 < step) :
    ∀ i : ℕ, cur + step * i ≤ maxV → cur + step * i ∈ loopVals cur maxV step := by
  intro i
  induction i generalizing cur with
  | zero =>
    intro hle
    simp only [Nat.cast_zero, mul_zero, add_zero] at hle ⊢
    rw [loopVals, dif_pos ⟨hle, hstep⟩]
    exact List.mem_cons_self _ _
  | succ i ih =>
    intro hle
    have hcur : cur ≤ maxV := by
      have h0 : (0 : ℚ) ≤ step * (i + 1 : ℕ) := by positivity
      linarith
    rw [loopVals, dif_pos ⟨hcur, hstep⟩]
    refine List.mem_cons_of_mem _ ?_
    have heq : cur + step * ((i + 1 : ℕ) : ℚ) = (cur + step) + step * (i : ℕ) := by
      push_cast
      ring
    rw [heq] at hle ⊢
    exact ih hle

theorem enum_mem_generate {cv : String} {c : ℚ} (hc : pyFloat cv = some c) {b a : ℕ} {v : ℚ}
    (hv : v ∈ loopVals (max 0 (c - stepOf c * b)) (c + stepOf c * a) (stepOf c)) :
    pyFmt v ∈ generate_attribute_options [] cv b a := by
  rw [generate_numeric_eq hc, List.mem_mergeSort, List.mem_dedup]
  have hmem : pyFmt v ∈ enumStrs c b a := List.mem_map_of_mem pyFmt hv
  unfold optsWithCorrect
  split
  · exact hmem
  · exact List.mem_append_left _ hmem

theorem div_den_one_iff {c d : ℚ} (hd : d ≠ 0) : (c / d).den = 1 ↔ ∃ k : ℤ, c = d * k := by
  constructor
  · intro h
    refine ⟨(c / d).num, ?_⟩
    have h2 : (((c / d).num : ℤ) : ℚ) = c / d := (Rat.den_eq_one_iff _).mp h
    rw [mul_comm, ← div_eq_iff hd]
    exact h2.symm
  · rintro ⟨k, rfl⟩
    rw [mul_comm, mul_div_assoc, div_self hd, mul_one, Rat.den_intCast]

theorem one_le_abs_nat_sub {i j : ℕ} (h : i ≠ j) : 1 ≤ |(i : ℚ) - (j : ℚ)| := by
  have hz : ((i : ℤ)) - ((j : ℤ)) ≠ 0 := sub_ne_zero.mpr (by exact_mod_cast h)
  have h1 : (1 : ℤ) ≤ |(i : ℤ) - (j : ℤ)| := Int.one_le_abs hz
  have h2 : |(i : ℚ) - (j : ℚ)| = ((|(i : ℤ) - (j : ℤ)| : ℤ) : ℚ) := by
    rw [Int.cast_abs]
    push_cast
    ring_nf
  rw [h2]
  exact_mod_cast h1

theorem mem_generate_val {cv : String} {c : ℚ} (hc : pyFloat cv = some c) {b a : ℕ}
    {s : String} (hs : s ∈ generate_attribute_options [] cv b a) :
    ∃ q : ℚ, pyFloat s = some q ∧
      (q = c ∨ ∃ i : ℕ, q = max 0 (c - stepOf c * b) + stepOf c * i ∧ q ≤ c + stepOf c * a) := by
  rcases mem_generate_cases hc hs with h1 | ⟨v, hv, rfl⟩
  · subst h1
    exact ⟨c, pyFloat_pyFmt (pyFloat_isFiniteDecimal hc), Or.inl rfl⟩
  · obtain ⟨⟨i, hi⟩, -, hvmax⟩ := loopVals_sound v hv
    refine ⟨v, pyFloat_pyFmt (loopVal_isFiniteDecimal (pyFloat_isFiniteDecimal hc) hv),
      Or.inr ⟨i, hi, hvmax⟩⟩

theorem stepOf_forty : stepOf (40 : ℚ) = 10 := by
  rw [stepOf, if_pos ⟨by norm_num, (div_den_one_iff (by norm_num)).mpr ⟨4, by norm_num⟩⟩]

theorem pyFmt_zero : pyFmt (0 : ℚ) = "0" := by decide

theorem pyFmt_injOn {u v : ℚ} (hu : IsFiniteDecimal u) (hv : IsFiniteDecimal v)
    (h : pyFmt u = pyFmt v) : u = v := by
  have h1 := pyFloat_pyFmt hu
  rw [h] at h1
  have h2 := pyFloat_pyFmt hv
  exact Option.some.inj (h1.symm.trans h2)

/-- Claim C1: for every correct-answer string that parses as a number, with no
predefined options, the returned list contains a string that, parsed as a
number, equals the correct value within epsilon 0.01 (here: exactly). -/
theorem claim_C1_correct_value_present (cv : String) (c : ℚ) (b a : ℕ)
    (hc : pyFloat cv = some c) :
    ∃ s ∈ generate_attribute_options [] cv b a,
      ∃ q : ℚ, pyFloat s = some q ∧ |q - c| ≤ 1 / 100 :=
  ⟨pyFmt c, correct_mem_generate hc b a,
    c, pyFloat_pyFmt (pyFloat_isFiniteDecimal hc), by norm_num⟩

theorem claim_C1_witness :
    ∃ s ∈ generate_attribute_options [] "40" 2 3,
      ∃ q : ℚ, pyFloat s = some q ∧ |q - 40| ≤ 1 / 100 :=
  claim_C1_correct_value_present "40" 40 2 3 (by decide)

/-- Claim C2: the step size is a pure function of the parsed correct value,
evaluated with the stated precedence (divisible-by-10, divisible-by-5,
less-than-5, fallback), and in particular `c = 40 → 10`, `c = 15 → 5`,
`c = 3 → 0.5`, `c = 7 → 5`. -/
theorem claim_C2_step_rule (c : ℚ) :
    ((10 ≤ c ∧ ∃ k : ℤ, c = 10 * k) → stepOf c = 10) ∧
    (¬(10 ≤ c ∧ ∃ k : ℤ, c = 10 * k) → (5 ≤ c ∧ ∃ k : ℤ, c = 5 * k) → stepOf c = 5) ∧
    (¬(10 ≤ c ∧ ∃ k : ℤ, c = 10 * k) → ¬(5 ≤ c ∧ ∃ k : ℤ, c = 5 * k) → c < 5 →
      stepOf c = 1 / 2) ∧
    (¬(10 ≤ c ∧ ∃ k : ℤ, c = 10 * k) → ¬(5 ≤ c ∧ ∃ k : ℤ, c = 5 * k) → ¬(c < 5) →
      stepOf c = if 10 ≤ c then 10 else 5) ∧
    stepOf (40 : ℚ) = 10 ∧ stepOf (15 : ℚ) = 5 ∧ stepOf (3 : ℚ) = 1 / 2 ∧
      stepOf (7 : ℚ) = 5 := by
  have h10 : ∀ x : ℚ, (10 ≤ x ∧ (x / 10).den = 1) ↔ (10 ≤ x ∧ ∃ k : ℤ, x = 10 * k) :=
    fun x => and_congr_right (fun _ => div_den_one_iff (by norm_num))
  have h5 : ∀ x : ℚ, (5 ≤ x ∧ (x / 5).den = 1) ↔ (5 ≤ x ∧ ∃ k : ℤ, x = 5 * k) :=
    fun x => and_congr_right (fun _ => div_den_one_iff (by norm_num))
  refine ⟨?_, ?_, ?_, ?_, ?_, ?_, ?_, ?_⟩
  · intro h
    rw [stepOf, if_pos ((h10 c).mpr h)]
  · intro h1 h2
    rw [stepOf, if_neg (fun hx => h1 ((h10 c).mp hx)), if_pos ((h5 c).mpr h2)]
  · intro h1 h2 h3
    rw [stepOf, if_neg (fun hx => h1 ((h10 c).mp hx)), if_neg (fun hx => h2 ((h5 c).mp hx)),
      if_pos h3]
  · intro h1 h2 h3
    rw [stepOf, if_neg (fun hx => h1 ((h10 c).mp hx)), if_neg (fun hx => h2 ((h5 c).mp hx)),
      if_neg h3]
  · rw [stepOf, if_pos ⟨by norm_num, (div_den_one_iff (by norm_num)).mpr ⟨4, by norm_num⟩⟩]
  · have hno : ¬(10 ≤ (15 : ℚ) ∧ ∃ k : ℤ, (15 : ℚ) = 10 * k) := by
      rintro ⟨-, k, hk⟩
      have h2 : (2 * k : ℤ) = 3 := by
        have h3 : (2 * (k : ℚ)) = 3 := by linarith
        exact_mod_cast h3
      omega
    rw [stepOf, if_neg (fun hx => hno ((h10 15).mp hx)),
      if_pos ⟨by norm_num, (div_den_one_iff (by norm_num)).mpr ⟨3, by norm_num⟩⟩]
  · have hno : ¬(10 ≤ (3 : ℚ) ∧ (3 / 10 : ℚ).den = 1) := by
      rintro ⟨hx, -⟩
      norm_num at hx
    have hno5 : ¬(5 ≤ (3 : ℚ) ∧ (3 / 5 : ℚ).den = 1) := by
      rintro ⟨hx, -⟩
      norm_num at hx
    rw [stepOf, if_neg hno, if_neg hno5, if_pos (by norm_num)]
  · have hno : ¬(10 ≤ (7 : ℚ) ∧ (7 / 10 : ℚ).den = 1) := by
      rintro ⟨hx, -⟩
      norm_num at hx
    have hno5 : ¬(5 ≤ (7 : ℚ) ∧ ∃ k : ℤ, (7 : ℚ) = 5 * k) := by
      rintro ⟨-, k, hk⟩
      have h2 : (5 * k : ℤ) = 7 := by
        have h3 : (5 * (k : ℚ)) = 7 := by linarith
        exact_mod_cast h3
      omega
    rw [stepOf, if_neg hno, if_neg (fun hx => hno5 ((h5 7).mp hx)),
      if_neg (by norm_num), if_neg (by norm_num)]

theorem claim_C2_witness : stepOf (40 : ℚ) = 10 ∧ stepOf (7 : ℚ) = 5 :=
  ⟨(claim_C2_step_rule 40).1 ⟨by norm_num, 4, by norm_num⟩,
    (claim_C2_step_rule 7).2.2.2.2.2.2.2⟩

/-- Claim C4: with a non-empty predefined option list the engine returns
exactly that list, bypassing all numeric heuristics. -/
theorem claim_C4_predefined_verbatim (predefined : List String) (cv : String) (b a : ℕ)
    (h : predefined ≠ []) :
    generate_attribute_options predefined cv b a = predefined :=
  generate_predefined h cv b a

theorem claim_C4_witness :
    generate_attribute_options ["120", "130"] "abc" 2 3 = ["120", "130"] :=
  claim_C4_predefined_verbatim ["120", "130"] "abc" 2 3 (by decide)

/-- Claim C6: for a correct-answer string that does not parse as a number,
with no predefined options, the engine returns the single-element list
containing only that string (and, being a total function, never raises). -/
theorem claim_C6_non_numeric_single (cv : String) (b a : ℕ) (h : pyFloat cv = none) :
    generate_attribute_options [] cv b a = [cv] :=
  generate_non_numeric h b a

theorem claim_C6_witness :
    generate_attribute_options [] "trace amount" 2 3 = ["trace amount"] :=
  claim_C6_non_numeric_single "trace amount" 2 3 (by decide)

/-- Claim C8: the engine is total and always returns a non-empty list; the
enumeration terminates because the step is always one of 10, 5, 0.5. -/
theorem claim_C8_total_nonempty :
    (∀ (predefined : List String) (cv : String) (b a : ℕ),
      generate_attribute_options predefined cv b a ≠ []) ∧
    (∀ c : ℚ, stepOf c = 10 ∨ stepOf c = 5 ∨ stepOf c = 1 / 2) := by
  refine ⟨?_, stepOf_cases⟩
  intro predefined cv b a
  by_cases hp : predefined = []
  · subst hp
    cases hpf : pyFloat cv with
    | none =>
      rw [generate_non_numeric hpf]
      simp
    | some c => exact List.ne_nil_of_mem (correct_mem_generate hpf b a)
  · rw [generate_predefined hp]
    exact hp

/-- Claim C10: for a numeric correct value with no predefined options, every
returned string other than the correct answer's formatted string parses to a
nonnegative value (the lower endpoint is clamped at 0); for a negative correct
value only the inserted correct string can be negative. -/
theorem claim_C10_nonnegative_distractors (cv : String) (c : ℚ) (b a : ℕ)
    (hc : pyFloat cv = some c) :
    (∀ s ∈ generate_attribute_options [] cv b a, s ≠ pyFmt c →
      ∃ q : ℚ, pyFloat s = some q ∧ 0 ≤ q) ∧
    (c < 0 → ∀ s ∈ generate_attribute_options [] cv b a, ∀ q : ℚ,
      pyFloat s = some q → q < 0 → s = pyFmt c) := by
  have hfd := pyFloat_isFiniteDecimal hc
  constructor
  · intro s hs hne
    rcases mem_generate_cases hc hs with h1 | ⟨v, hv, rfl⟩
    · exact absurd h1 hne
    · obtain ⟨-, hlo, -⟩ := loopVals_sound v hv
      refine ⟨v, pyFloat_pyFmt (loopVal_isFiniteDecimal hfd hv), ?_⟩
      calc (0 : ℚ) ≤ max 0 (c - stepOf c * b) := le_max_left _ _
        _ ≤ v := hlo
  · intro hcneg s hs q hq hqneg
    rcases mem_generate_cases hc hs with h1 | ⟨v, hv, rfl⟩
    · exact h1
    · exfalso
      obtain ⟨-, hlo, -⟩ := loopVals_sound v hv
      have hv0 : (0 : ℚ) ≤ v := le_trans (le_max_left _ _) hlo
      have hrt := pyFloat_pyFmt (loopVal_isFiniteDecimal hfd hv)
      rw [hq] at hrt
      have hqv : q = v := Option.some.inj hrt
      linarith

theorem claim_C10_witness :
    (∀ s ∈ generate_attribute_options [] "40" 2 3, s ≠ pyFmt 40 →
      ∃ q : ℚ, pyFloat s = some q ∧ 0 ≤ q) ∧
    ((40 : ℚ) < 0 → ∀ s ∈ generate_attribute_options [] "40" 2 3, ∀ q : ℚ,
      pyFloat s = some q → q < 0 → s = pyFmt 40) :=
  claim_C10_nonnegative_distractors "40" 40 2 3 (by decide)

/-- Claim C3 counterexample: with correct value 40 and a valid draw
`b = 4, a = 3`, the output contains "0" with value 0, while the claimed lower
bound `max(0, c − step·2) = 20` is not `≤ 0`: the claim's "for every draw"
bound with coefficient 2 is false. -/
theorem claim_C3_counterexample :
    "0" ∈ generate_attribute_options [] "40" 4 3 ∧ pyFloat "0" = some 0 ∧
      ¬ (max 0 ((40 : ℚ) - stepOf 40 * 2) ≤ 0) := by
  refine ⟨?_, by decide, ?_⟩
  · have helem : max (0 : ℚ) (40 - stepOf 40 * ((4 : ℕ) : ℚ)) + stepOf 40 * ((0 : ℕ) : ℚ) = 0 := by
      rw [stepOf_forty]
      push_cast
      norm_num
    have hle : max (0 : ℚ) (40 - stepOf 40 * ((4 : ℕ) : ℚ)) + stepOf 40 * ((0 : ℕ) : ℚ) ≤
        40 + stepOf 40 * ((3 : ℕ) : ℚ) := by
      rw [stepOf_forty]
      push_cast
      norm_num
    have hmem := loopVals_complete (stepOf_pos 40) 0 hle
    rw [helem] at hmem
    have hfin := enum_mem_generate (by decide : pyFloat "40" = some 40) hmem
    rwa [pyFmt_zero] at hfin
  · rw [stepOf_forty]
    norm_num

/-- Claim C3 (amended): for a numeric correct value with `b ∈ {2,3,4}` and
`a ∈ {3,4,5}`, every output other than the correct string is
`max(0, c − step·b) + step·i`; every output value is at most `c + step·5`,
and at least `max(0, c − step·4)` provided `c ≥ 0` (the original claim's
coefficient 2 is corrected to 4, the largest below-count). -/
theorem claim_C3_amended (cv : String) (c : ℚ) (b a : ℕ) (hc : pyFloat cv = some c)
    (hb2 : 2 ≤ b) (hb4 : b ≤ 4) (ha3 : 3 ≤ a) (ha5 : a ≤ 5) :
    (∀ s ∈ generate_attribute_options [] cv b a, s ≠ pyFmt c →
      ∃ i : ℕ, pyFloat s = some (max 0 (c - stepOf c * b) + stepOf c * i)) ∧
    (0 ≤ c → ∀ s ∈ generate_attribute_options [] cv b a, ∀ q : ℚ, pyFloat s = some q →
      max 0 (c - stepOf c * 4) ≤ q) ∧
    (∀ s ∈ generate_attribute_options [] cv b a, ∀ q : ℚ, pyFloat s = some q →
      q ≤ c + stepOf c * 5) := by
  have hfd := pyFloat_isFiniteDecimal hc
  have hstep := stepOf_pos c
  refine ⟨?_, ?_, ?_⟩
  · intro s hs hne
    rcases mem_generate_cases hc hs with h1 | ⟨v, hv, rfl⟩
    · exact absurd h1 hne
    · obtain ⟨⟨i, hi⟩, -, -⟩ := loopVals_sound v hv
      refine ⟨i, ?_⟩
      rw [← hi]
      exact pyFloat_pyFmt (loopVal_isFiniteDecimal hfd hv)
  · intro hc0 s hs q hq
    rcases mem_generate_cases hc hs with h1 | ⟨v, hv, rfl⟩
    · subst h1
      have hrt := pyFloat_pyFmt hfd
      rw [hq] at hrt
      have hqc : q = c := Option.some.inj hrt
      rw [hqc]
      have h4 : (0 : ℚ) ≤ stepOf c * 4 := by positivity
      exact max_le hc0 (by linarith)
    · obtain ⟨-, hlo, -⟩ := loopVals_sound v hv
      have hrt := pyFloat_pyFmt (loopVal_isFiniteDecimal hfd hv)
      rw [hq] at hrt
      have hqv : q = v := Option.some.inj hrt
      rw [hqv]
      refine le_trans (max_le_max (le_refl 0) ?_) hlo
      have hb : (b : ℚ) ≤ 4 := by exact_mod_cast hb4
      nlinarith
  · intro s hs q hq
    rcases mem_generate_cases hc hs with h1 | ⟨v, hv, rfl⟩
    · subst h1
      have hrt := pyFloat_pyFmt hfd
      rw [hq] at hrt
      have hqc : q = c := Option.some.inj hrt
      rw [hqc]
      nlinarith
    · obtain ⟨-, -, hhi⟩ := loopVals_sound v hv
      have hrt := pyFloat_pyFmt (loopVal_isFiniteDecimal hfd hv)
      rw [hq] at hrt
      have hqv : q = v := Option.some.inj hrt
      rw [hqv]
      have ha : (a : ℚ) ≤ 5 := by exact_mod_cast ha5
      nlinarith

theorem claim_C3_witness :
    (∀ s ∈ generate_attribute_options [] "40" 2 3, s ≠ pyFmt 40 →
      ∃ i : ℕ, pyFloat s = some (max 0 (40 - stepOf 40 * (2 : ℕ)) + stepOf 40 * i)) ∧
    ((0 : ℚ) ≤ 40 → ∀ s ∈ generate_attribute_options [] "40" 2 3, ∀ q : ℚ,
      pyFloat s = some q → max 0 (40 - stepOf 40 * 4) ≤ q) ∧
    (∀ s ∈ generate_attribute_options [] "40" 2 3, ∀ q : ℚ, pyFloat s = some q →
      q ≤ 40 + stepOf 40 * 5) :=
  claim_C3_amended "40" 40 2 3 (by decide) (by norm_num) (by norm_num) (by norm_num)
    (by norm_num)

/-- Claim C5: the numeric-path output has no duplicate strings and is sorted
ascending by parsed numeric value; the result is a deterministic function of
the inputs (no shuffling). -/
theorem claim_C5_nodup_sorted (cv : String) (c : ℚ) (b a : ℕ) (hc : pyFloat cv = some c) :
    (generate_attribute_options [] cv b a).Nodup ∧
      (generate_attribute_options [] cv b a).Pairwise (fun s t => valD s ≤ valD t) := by
  rw [generate_numeric_eq hc]
  constructor
  · exact ((List.mergeSort_perm _ _).nodup_iff).mpr (List.nodup_dedup _)
  · refine List.Pairwise.imp (fun h => of_decide_eq_true h)
      (List.sorted_mergeSort ?_ ?_ ((optsWithCorrect c b a).dedup))
    · intro x y z hxy hyz
      exact decide_eq_true (le_trans (of_decide_eq_true hxy) (of_decide_eq_true hyz))
    · intro x y
      rcases le_total (valD x) (valD y) with h | h <;> simp [h]

theorem claim_C5_witness :
    (generate_attribute_options [] "40" 2 3).Nodup ∧
      (generate_attribute_options [] "40" 2 3).Pairwise (fun s t => valD s ≤ valD t) :=
  claim_C5_nodup_sorted "40" 40 2 3 (by decide)

theorem pyFloat_dot45 : pyFloat "0.45" = some (9 / 20 : ℚ) := by
  have h1 : pyFloat "0.45" = parseUnsigned (['0'] ++ '.' :: ['4', '5']) := rfl
  rw [h1, parseUnsigned_decimal (by decide) (by decide) (by decide)]
  congr 1
  have h2 : digitsVal ['0'] = 0 := by decide
  have h3 : digitsVal ['4', '5'] = 45 := by decide
  rw [h2, h3]
  simp only [List.length_cons, List.length_nil]
  push_cast
  norm_num

theorem stepOf_dot45 : stepOf (9 / 20 : ℚ) = 1 / 2 := by
  rw [stepOf, if_neg (by rintro ⟨hx, -⟩; norm_num at hx),
    if_neg (by rintro ⟨hx, -⟩; norm_num at hx), if_pos (by norm_num)]

/-- Claim C7 counterexample: with correct value 0.45 (a valid draw being
`b = 2, a = 3`), the output contains both the inserted correct string and the
enumerated value 0.5; these are distinct strings whose parsed values differ by
only 0.05 ≤ 0.1, refuting the pairwise-0.1-separation claim. -/
theorem claim_C7_counterexample :
    pyFmt (9 / 20 : ℚ) ∈ generate_attribute_options [] "0.45" 2 3 ∧
    pyFmt (1 / 2 : ℚ) ∈ generate_attribute_options [] "0.45" 2 3 ∧
    pyFmt (9 / 20 : ℚ) ≠ pyFmt (1 / 2 : ℚ) ∧
    pyFloat (pyFmt (9 / 20 : ℚ)) = some (9 / 20) ∧
    pyFloat (pyFmt (1 / 2 : ℚ)) = some (1 / 2) ∧
    |(9 / 20 : ℚ) - 1 / 2| ≤ 1 / 10 := by
  have hc : pyFloat "0.45" = some (9 / 20 : ℚ) := pyFloat_dot45
  have hfd : IsFiniteDecimal (9 / 20 : ℚ) := pyFloat_isFiniteDecimal hc
  have helem : max (0 : ℚ) (9 / 20 - stepOf (9 / 20) * ((2 : ℕ) : ℚ)) +
      stepOf (9 / 20) * ((1 : ℕ) : ℚ) = 1 / 2 := by
    rw [stepOf_dot45]
    push_cast
    simp only [max_def]
    norm_num
  have hle : max (0 : ℚ) (9 / 20 - stepOf (9 / 20) * ((2 : ℕ) : ℚ)) +
      stepOf (9 / 20) * ((1 : ℕ) : ℚ) ≤ 9 / 20 + stepOf (9 / 20) * ((3 : ℕ) : ℚ) := by
    rw [stepOf_dot45]
    push_cast
    simp only [max_def]
    norm_num
  have hmem2 := loopVals_complete (stepOf_pos (9 / 20)) 1 hle
  rw [helem] at hmem2
  have hin2 : pyFmt (1 / 2 : ℚ) ∈ generate_attribute_options [] "0.45" 2 3 :=
    enum_mem_generate hc hmem2
  have hin1 : pyFmt (9 / 20 : ℚ) ∈ generate_attribute_options [] "0.45" 2 3 :=
    correct_mem_generate hc 2 3
  have hfd2 : IsFiniteDecimal (1 / 2 : ℚ) := by
    have hst := stepOf_isFiniteDecimal (9 / 20)
    rwa [stepOf_dot45] at hst
  have hr1 : pyFloat (pyFmt (9 / 20 : ℚ)) = some (9 / 20) := pyFloat_pyFmt hfd
  have hr2 : pyFloat (pyFmt (1 / 2 : ℚ)) = some (1 / 2) := pyFloat_pyFmt hfd2
  refine ⟨hin1, hin2, ?_, hr1, hr2, ?_⟩
  · intro heq
    have hbad := pyFmt_injOn hfd hfd2 heq
    norm_num at hbad
  · rw [abs_of_nonpos (by norm_num)]
    norm_num

/-- Claim C7 (amended): any two distinct entries of the numeric-path output,
neither of which is the inserted correct answer's string, have parsed values
more than 0.1 apart (they are distinct multiples of the step, which is at
least 0.5); a pair involving the correct answer's own string may be closer. -/
theorem claim_C7_amended (cv : String) (c : ℚ) (b a : ℕ) (hc : pyFloat cv = some c)
    {s t : String} (hs : s ∈ generate_attribute_options [] cv b a)
    (ht : t ∈ generate_attribute_options [] cv b a) (hst : s ≠ t)
    (hsc : s ≠ pyFmt c) (htc : t ≠ pyFmt c) :
    ∀ u v : ℚ, pyFloat s = some u → pyFloat t = some v → 1 / 10 < |u - v| := by
  intro u v hu hv
  have hfd := pyFloat_isFiniteDecimal hc
  rcases mem_generate_cases hc hs with h1 | ⟨x, hx, rfl⟩
  · exact absurd h1 hsc
  rcases mem_generate_cases hc ht with h1 | ⟨y, hy, rfl⟩
  · exact absurd h1 htc
  obtain ⟨⟨i, hi⟩, -, -⟩ := loopVals_sound x hx
  obtain ⟨⟨j, hj⟩, -, -⟩ := loopVals_sound y hy
  have hxu : u = x := by
    have hrt := pyFloat_pyFmt (loopVal_isFiniteDecimal hfd hx)
    rw [hu] at hrt
    exact Option.some.inj hrt
  have hyv : v = y := by
    have hrt := pyFloat_pyFmt (loopVal_isFiniteDecimal hfd hy)
    rw [hv] at hrt
    exact Option.some.inj hrt
  have hij : i ≠ j := by
    rintro rfl
    exact hst (congrArg pyFmt (hi.trans hj.symm))
  have habs : |u - v| = stepOf c * |(i : ℚ) - (j : ℚ)| := by
    rw [hxu, hyv, hi, hj,
      show max 0 (c - stepOf c * b) + stepOf c * i -
          (max 0 (c - stepOf c * b) + stepOf c * j) = stepOf c * ((i : ℚ) - (j : ℚ)) from
        by ring,
      abs_mul, abs_of_pos (stepOf_pos c)]
  have h2 := one_le_abs_nat_sub hij
  have h3 := stepOf_half_le c
  have h4 : stepOf c * 1 ≤ stepOf c * |(i : ℚ) - (j : ℚ)| :=
    mul_le_mul_of_nonneg_left h2 (le_of_lt (stepOf_pos c))
  rw [habs]
  linarith

theorem claim_C7_witness :
    pyFmt (20 : ℚ) ∈ generate_attribute_options [] "40" 2 3 ∧
    pyFmt (30 : ℚ) ∈ generate_attribute_options [] "40" 2 3 ∧
    1 / 10 < |(20 : ℚ) - 30| := by
  have hc : pyFloat "40" = some (40 : ℚ) := by decide
  have helem0 : max (0 : ℚ) (40 - stepOf 40 * ((2 : ℕ) : ℚ)) +
      stepOf 40 * ((0 : ℕ) : ℚ) = 20 := by
    rw [stepOf_forty]
    push_cast
    simp only [max_def]
    norm_num
  have helem1 : max (0 : ℚ) (40 - stepOf 40 * ((2 : ℕ) : ℚ)) +
      stepOf 40 * ((1 : ℕ) : ℚ) = 30 := by
    rw [stepOf_forty]
    push_cast
    simp only [max_def]
    norm_num
  have hle0 : max (0 : ℚ) (40 - stepOf 40 * ((2 : ℕ) : ℚ)) +
      stepOf 40 * ((0 : ℕ) : ℚ) ≤ 40 + stepOf 40 * ((3 : ℕ) : ℚ) := by
    rw [stepOf_forty]
    push_cast
    simp only [max_def]
    norm_num
  have hle1 : max (0 : ℚ) (40 - stepOf 40 * ((2 : ℕ) : ℚ)) +
      stepOf 40 * ((1 : ℕ) : ℚ) ≤ 40 + stepOf 40 * ((3 : ℕ) : ℚ) := by
    rw [stepOf_forty]
    push_cast
    simp only [max_def]
    norm_num
  have hmem0 := loopVals_complete (stepOf_pos 40) 0 hle0
  rw [helem0] at hmem0
  have hmem1 := loopVals_complete (stepOf_pos 40) 1 hle1
  rw [helem1] at hmem1
  have hin0 : pyFmt (20 : ℚ) ∈ generate_attribute_options [] "40" 2 3 :=
    enum_mem_generate hc hmem0
  have hin1 : pyFmt (30 : ℚ) ∈ generate_attribute_options [] "40" 2 3 :=
    enum_mem_generate hc hmem1
  have hfd20 : IsFiniteDecimal (20 : ℚ) := isFiniteDecimal_of_den_one (by decide)
  have hfd30 : IsFiniteDecimal (30 : ℚ) := isFiniteDecimal_of_den_one (by decide)
  have hfd40 : IsFiniteDecimal (40 : ℚ) := isFiniteDecimal_of_den_one (by decide)
  have hr20 : pyFloat (pyFmt (20 : ℚ)) = some 20 := pyFloat_pyFmt hfd20
  have hr30 : pyFloat (pyFmt (30 : ℚ)) = some 30 := pyFloat_pyFmt hfd30
  have hne : pyFmt (20 : ℚ) ≠ pyFmt (30 : ℚ) := by
    intro heq
    have hbad := pyFmt_injOn hfd20 hfd30 heq
    norm_num at hbad
  have hne20 : pyFmt (20 : ℚ) ≠ pyFmt (40 : ℚ) := by
    intro heq
    have hbad := pyFmt_injOn hfd20 hfd40 heq
    norm_num at hbad
  have hne30 : pyFmt (30 : ℚ) ≠ pyFmt (40 : ℚ) := by
    intro heq
    have hbad := pyFmt_injOn hfd30 hfd40 heq
    norm_num at hbad
  exact ⟨hin0, hin1,
    claim_C7_amended "40" 40 2 3 hc hin0 hin1 hne hne20 hne30 20 30 hr20 hr30⟩

theorem three_mem_contra {S : List String} (hS : S.Nodup) {correct : String}
    (hcor : correct ∈ S) (hlen : S.length ≤ 3) {x y z : String}
    (hxy : x ≠ y) (hxz : x ≠ z) (hyz : y ≠ z)
    (hx : x ∈ S) (hy : y ∈ S) (hz : z ∈ S)
    (hxc : x ≠ correct) (hyc : y ≠ correct) (hzc : z ≠ correct) : False := by
  have herase : (S.erase correct).length = S.length - 1 := List.length_erase_of_mem hcor
  have hsub : [x, y, z] ⊆ S.erase correct := by
    intro w hw
    rcases List.mem_cons.mp hw with rfl | hw
    · exact (List.mem_erase_of_ne hxc).mpr hx
    rcases List.mem_cons.mp hw with rfl | hw
    · exact (List.mem_erase_of_ne hyc).mpr hy
    rcases List.mem_cons.mp hw with rfl | hw
    · exact (List.mem_erase_of_ne hzc).mpr hz
    · exact absurd hw (List.not_mem_nil w)
  have hnodup : ([x, y, z] : List String).Nodup := by
    simp [hxy, hxz, hyz]
  have hle := (hnodup.subperm hsub).length_le
  simp only [List.length_cons, List.length_nil] at hle
  omega

theorem fallback_isFiniteDecimal {t : ℚ} (ht : t ∈ fallbackCatalog) : IsFiniteDecimal t := by
  simp only [fallbackCatalog, List.mem_cons, List.not_mem_nil, or_false] at ht
  rcases ht with rfl | rfl | rfl | rfl <;> exact isFiniteDecimal_of_den_one (by decide)

theorem fallback_near_unique {c t u : ℚ} (ht : t ∈ fallbackCatalog)
    (hu : u ∈ fallbackCatalog) (h1 : |t - c| ≤ 1 / 10) (h2 : |u - c| ≤ 1 / 10) : t = u := by
  have h3 : |t - u| ≤ 1 / 5 := by
    calc |t - u| ≤ |t - c| + |c - u| := abs_sub_le t c u
      _ = |t - c| + |u - c| := by rw [abs_sub_comm c u]
      _ ≤ 1 / 10 + 1 / 10 := add_le_add h1 h2
      _ = 1 / 5 := by norm_num
  have h4 := abs_le.mp h3
  obtain ⟨h5, h6⟩ := h4
  simp only [fallbackCatalog, List.mem_cons, List.not_mem_nil, or_false] at ht hu
  rcases ht with rfl | rfl | rfl | rfl <;> rcases hu with rfl | rfl | rfl | rfl <;>
    first
      | rfl
      | (exfalso; norm_num at h5 h6)

theorem synthesize_filler_numeric_some {correct : String} {c : ℚ}
    (hc : pyFloat correct = some c) {S : List String} (hS : S.Nodup) (hcor : correct ∈ S)
    (hlen : S.length ≤ 3) (draws : List ℕ) :
    ∃ s, synthesize_filler (some c) S draws = some s ∧ s ∉ S := by
  have hval : ∃ t ∈ fallbackCatalog, validFiller c S t = true := by
    by_contra hno
    push_neg at hno
    have hblk : ∀ t ∈ fallbackCatalog, |t - c| ≤ 1 / 10 ∨ (pyFmt t ∈ S ∧ pyFmt t ≠ correct) := by
      intro t ht
      have hb := hno t ht
      have hb2 : ¬(1 / 10 < |t - c| ∧ pyFmt t ∉ S) := by
        intro hcontra
        refine hb ?_
        unfold validFiller
        rw [decide_eq_true hcontra.1, decide_eq_true hcontra.2]
        rfl
      by_cases hnear : 1 / 10 < |t - c|
      · right
        have hmem : pyFmt t ∈ S := by
          by_contra hnm
          exact hb2 ⟨hnear, hnm⟩
        refine ⟨hmem, ?_⟩
        intro heqc
        have hrt : pyFloat (pyFmt t) = some t := pyFloat_pyFmt (fallback_isFiniteDecimal ht)
        rw [heqc, hc] at hrt
        have hct : c = t := Option.some.inj hrt
        rw [hct, sub_self, abs_zero] at hnear
        norm_num at hnear
      · exact Or.inl (not_lt.mp hnear)
    have hfmtne : ∀ t ∈ fallbackCatalog, ∀ u ∈ fallbackCatalog, t ≠ u → pyFmt t ≠ pyFmt u := by
      intro t ht u hu htu heq
      exact htu (pyFmt_injOn (fallback_isFiniteDecimal ht) (fallback_isFiniteDecimal hu) heq)
    have hm50 := hblk 50 (by simp [fallbackCatalog])
    have hm100 := hblk 100 (by simp [fallbackCatalog])
    have hm150 := hblk 150 (by simp [fallbackCatalog])
    have hm200 := hblk 200 (by simp [fallbackCatalog])
    have hc50 : (50 : ℚ) ∈ fallbackCatalog := by simp [fallbackCatalog]
    have hc100 : (100 : ℚ) ∈ fallbackCatalog := by simp [fallbackCatalog]
    have hc150 : (150 : ℚ) ∈ fallbackCatalog := by simp [fallbackCatalog]
    have hc200 : (200 : ℚ) ∈ fallbackCatalog := by simp [fallbackCatalog]
    rcases hm50 with hn50 | hp50
    · have h100 : pyFmt (100 : ℚ) ∈ S ∧ pyFmt (100 : ℚ) ≠ correct := by
        rcases hm100 with hn | hp
        · exfalso
          have := fallback_near_unique hc100 hc50 hn hn50
          norm_num at this
        · exact hp
      have h150 : pyFmt (150 : ℚ) ∈ S ∧ pyFmt (150 : ℚ) ≠ correct := by
        rcases hm150 with hn | hp
        · exfalso
          have := fallback_near_unique hc150 hc50 hn hn50
          norm_num at this
        · exact hp
      have h200 : pyFmt (200 : ℚ) ∈ S ∧ pyFmt (200 : ℚ) ≠ correct := by
        rcases hm200 with hn | hp
        · exfalso
          have := fallback_near_unique hc200 hc50 hn hn50
          norm_num at this
        · exact hp
      exact three_mem_contra hS hcor hlen
        (hfmtne 100 hc100 150 hc150 (by norm_num))
        (hfmtne 100 hc100 200 hc200 (by norm_num))
        (hfmtne 150 hc150 200 hc200 (by norm_num))
        h100.1 h150.1 h200.1 h100.2 h150.2 h200.2
    rcases hm100 with hn100 | hp100
    · have h150 : pyFmt (150 : ℚ) ∈ S ∧ pyFmt (150 : ℚ) ≠ correct := by
        rcases hm150 with hn | hp
        · exfalso
          have := fallback_near_unique hc150 hc100 hn hn100
          norm_num at this
        · exact hp
      have h200 : pyFmt (200 : ℚ) ∈ S ∧ pyFmt (200 : ℚ) ≠ correct := by
        rcases hm200 with hn | hp
        · exfalso
          have := fallback_near_unique hc200 hc100 hn hn100
          norm_num at this
        · exact hp
      exact three_mem_contra hS hcor hlen
        (hfmtne 50 hc50 150 hc150 (by norm_num))
        (hfmtne 50 hc50 200 hc200 (by norm_num))
        (hfmtne 150 hc150 200 hc200 (by norm_num))
        hp50.1 h150.1 h200.1 hp50.2 h150.2 h200.2
    rcases hm150 with hn150 | hp150
    · have h200 : pyFmt (200 : ℚ) ∈ S ∧ pyFmt (200 : ℚ) ≠ correct := by
        rcases hm200 with hn | hp
        · exfalso
          have := fallback_near_unique hc200 hc150 hn hn150
          norm_num at this
        · exact hp
      exact three_mem_contra hS hcor hlen
        (hfmtne 50 hc50 100 hc100 (by norm_num))
        (hfmtne 50 hc50 200 hc200 (by norm_num))
        (hfmtne 100 hc100 200 hc200 (by norm_num))
        hp50.1 hp100.1 h200.1 hp50.2 hp100.2 h200.2
    · exact three_mem_contra hS hcor hlen
        (hfmtne 50 hc50 100 hc100 (by norm_num))
        (hfmtne 50 hc50 150 hc150 (by norm_num))
        (hfmtne 100 hc100 150 hc150 (by norm_num))
        hp50.1 hp100.1 hp150.1 hp50.2 hp100.2 hp150.2
  obtain ⟨t, htmem, htval⟩ := hval
  have htL : t ∈ (draws.map (fun k => max 0 (roundTen c + offsetCatalog.getD (k % 5) 0)) ++
      fallbackCatalog).filter (validFiller c S) :=
    List.mem_filter.mpr ⟨List.mem_append_right _ htmem, htval⟩
  obtain ⟨w, ws, hws⟩ := List.exists_cons_of_ne_nil (List.ne_nil_of_mem htL)
  have hwmem : w ∈ (draws.map (fun k => max 0 (roundTen c + offsetCatalog.getD (k % 5) 0)) ++
      fallbackCatalog).filter (validFiller c S) := by
    rw [hws]
    exact List.mem_cons_self _ _
  have hwval : validFiller c S w = true := (List.mem_filter.mp hwmem).2
  have hfresh : pyFmt w ∉ S := by
    simp only [validFiller, Bool.and_eq_true, decide_eq_true_eq] at hwval
    exact hwval.2
  refine ⟨pyFmt w, ?_, hfresh⟩
  simp only [synthesize_filler]
  rw [hws]
  rfl

theorem synthesize_filler_label_some {correct : String} {S : List String} (hS : S.Nodup)
    (hcor : correct ∈ S) (hlen : S.length ≤ 3) (draws : List ℕ) :
    ∃ s, synthesize_filler none S draws = some s ∧ s ∉ S := by
  have hval : ∃ t ∈ labelCatalog, t ∉ S := by
    by_contra hno
    push_neg at hno
    have hsub : labelCatalog ⊆ S := fun x hx => hno x hx
    have hnd : labelCatalog.Nodup := by decide
    have hle := (hnd.subperm hsub).length_le
    have h5 : labelCatalog.length = 5 := rfl
    omega
  obtain ⟨t, htmem, htnot⟩ := hval
  have htL : t ∈ labelCatalog.filter (fun s => decide (s ∉ S)) :=
    List.mem_filter.mpr ⟨htmem, decide_eq_true htnot⟩
  obtain ⟨w, ws, hws⟩ := List.exists_cons_of_ne_nil (List.ne_nil_of_mem htL)
  have hwmem : w ∈ labelCatalog.filter (fun s => decide (s ∉ S)) := by
    rw [hws]
    exact List.mem_cons_self _ _
  have hfresh : w ∉ S := by
    have h2 := (List.mem_filter.mp hwmem).2
    simpa using h2
  refine ⟨w, ?_, hfresh⟩
  simp only [synthesize_filler]
  rw [hws]
  rfl

theorem fillLoop_spec_aux {correct : String} (filler : List String → Option String)
    (hfill : ∀ S : List String, S.Nodup → correct ∈ S → S.length ≤ 3 →
      ∃ s, filler S = some s ∧ s ∉ S) :
    ∀ (n : ℕ) (S : List String), 4 - S.length ≤ n → S.Nodup → correct ∈ S →
      (fillLoop filler S).Nodup ∧ correct ∈ fillLoop filler S ∧
        4 ≤ (fillLoop filler S).length := by
  intro n
  induction n with
  | zero =>
    intro S hn hS hcor
    rw [fillLoop, dif_neg (by omega)]
    exact ⟨hS, hcor, by omega⟩
  | succ n ih =>
    intro S hn hS hcor
    by_cases hlt : S.length < 4
    · obtain ⟨s, hsome, hfresh⟩ := hfill S hS hcor (by omega)
      rw [fillLoop, dif_pos hlt]
      simp only [hsome]
      rw [dif_neg hfresh]
      have hnd2 : (S ++ [s]).Nodup := by
        rw [List.nodup_append]
        refine ⟨hS, List.nodup_singleton s, ?_⟩
        intro x hx hx'
        simp only [List.mem_singleton] at hx'
        subst hx'
        exact hfresh hx
      refine ih (S ++ [s]) ?_ hnd2 (List.mem_append_left _ hcor)
      simp only [List.length_append, List.length_singleton]
      omega
    · rw [fillLoop, dif_neg hlt]
      exact ⟨hS, hcor, by omega⟩

theorem foldl_insertFresh_nodup :
    ∀ (cands S : List String), S.Nodup →
      (cands.foldl (fun S s => if s ∈ S then S else S ++ [s]) S).Nodup := by
  intro cands
  induction cands with
  | nil => exact fun S h => h
  | cons cnd cs ih =>
    intro S h
    simp only [List.foldl_cons]
    by_cases hc : cnd ∈ S
    · rw [if_pos hc]
      exact ih S h
    · rw [if_neg hc]
      refine ih _ ?_
      rw [List.nodup_append]
      refine ⟨h, List.nodup_singleton _, ?_⟩
      intro x hx hx'
      simp only [List.mem_singleton] at hx'
      subst hx'
      exact hc hx

theorem foldl_insertFresh_mem :
    ∀ (cands S : List String) (x : String), x ∈ S →
      x ∈ cands.foldl (fun S s => if s ∈ S then S else S ++ [s]) S := by
  intro cands
  induction cands with
  | nil => exact fun S x h => h
  | cons cnd cs ih =>
    intro S x hx
    simp only [List.foldl_cons]
    by_cases hc : cnd ∈ S
    · rw [if_pos hc]
      exact ih S x hx
    · rw [if_neg hc]
      exact ih _ x (List.mem_append_left _ hx)

theorem finalize_spec (correct : String) (pool : List String) (draws : List ℕ) :
    (finalize correct pool draws).Nodup ∧ correct ∈ finalize correct pool draws ∧
      4 ≤ (finalize correct pool draws).length := by
  have hfill : ∀ S : List String, S.Nodup → correct ∈ S → S.length ≤ 3 →
      ∃ s, synthesize_filler (pyFloat correct) S draws = some s ∧ s ∉ S := by
    intro S hS hcor hlen
    cases hpc : pyFloat correct with
    | none => exact synthesize_filler_label_some hS hcor hlen draws
    | some c => exact synthesize_filler_numeric_some hpc hS hcor hlen draws
  exact fillLoop_spec_aux _ hfill 4 _
    (by omega)
    (foldl_insertFresh_nodup _ [correct] (List.nodup_singleton _))
    (foldl_insertFresh_mem _ [correct] correct (List.mem_singleton_self _))

/-- Claim C9 (spec-modelled, generation 1 is not under `src/`): for every
correct answer, pool and random draws, and for every shuffled order of the
finalizer's option set, the final option list has length exactly 4, its
strings are pairwise distinct, and the correct answer survives truncation. -/
theorem claim_C9_gen1_four_distinct (correct : String) (pool : List String)
    (draws : List ℕ) (l : List String) (hperm : l.Perm (finalize correct pool draws)) :
    (truncate4 correct l).length = 4 ∧ (truncate4 correct l).Nodup ∧
      correct ∈ truncate4 correct l := by
  obtain ⟨hnd, hmem, hlen⟩ := finalize_spec correct pool draws
  have hlnd : l.Nodup := (hperm.nodup_iff).mpr hnd
  have hlmem : correct ∈ l := hperm.mem_iff.mpr hmem
  have hllen : 4 ≤ l.length := hperm.length_eq ▸ hlen
  unfold truncate4
  by_cases hct : correct ∈ l.take 4
  · rw [if_pos hct]
    refine ⟨?_, ?_, hct⟩
    · rw [List.length_take]
      omega
    · exact (List.take_sublist 4 l).nodup hlnd
  · rw [if_neg hct]
    have ht3 : (l.take 3).length = 3 := by
      rw [List.length_take]
      omega
    have hsub34 : List.Sublist (l.take 3) (l.take 4) := by
      have h34 := List.take_sublist 3 (l.take 4)
      rwa [List.take_take, show min 3 4 = 3 from rfl] at h34
    refine ⟨?_, ?_, ?_⟩
    · simp only [List.length_append, List.length_singleton, ht3]
    · rw [List.nodup_append]
      refine ⟨(List.take_sublist 3 l).nodup hlnd, List.nodup_singleton _, ?_⟩
      intro x hx hx'
      simp only [List.mem_singleton] at hx'
      subst hx'
      exact hct (hsub34.subset hx)
    · exact List.mem_append_right _ (List.mem_singleton_self _)

theorem claim_C9_witness :
    (truncate4 "30" (finalize "30" ["28", "32", "50", "10"] [])).length = 4 ∧
    (truncate4 "30" (finalize "30" ["28", "32", "50", "10"] [])).Nodup ∧
    "30" ∈ truncate4 "30" (finalize "30" ["28", "32", "50", "10"] []) :=
  claim_C9_gen1_four_distinct "30" ["28", "32", "50", "10"] [] _ (List.Perm.refl _)

end PracticeDrink
